import Mathlib

/-!
Verification of the accounting-reconciliation core (src/app.py).

The program extracts trial-balance (TB) lines from PDF text with the regex

  (\d{4}-\d{2})\s+.+?([\d,]+\.\d{2})\s+([\d,]+\.\d{2})\s+([\d,]+\.\d{2})\s+
  ([\d,]+\.\d{2})\s+([\d,]+\.\d{2})\s+([\d,]+\.\d{2})

applied with `pattern.match(line)` to each line, converts groups 6 and 7
(comma-stripped) to numbers, derives a signed amount, joins the records
against a fixed 13-entry reference table, computes a tolerance verdict per
entry, and formats the result rows.

Numbers are CPython floats, i.e. IEEE-754 binary64 values.  We model them
exactly: a finite double is represented by its exact rational value (every
finite double is a dyadic rational), and the type also carries the two
infinities and NaN.  `float()` on a decimal string and every float literal
produce the nearest double (CPython's conversions are correctly rounded,
ties to even), subtraction rounds its exact result the same way and
overflows to an infinity, comparisons are exact, and `abs` and negation
are exact.  The one simplification: IEEE negative zero is collapsed onto
zero.  A negative zero arises only as `-balance_credit` for an all-zero
line and is numerically equal to zero everywhere the program compares; it
differs only in making the formatter print `-0.00` instead of `0.00`,
which no judged property distinguishes.  NaN is carried for totality of
the operations; no reachable value of this program is NaN (it would need
`inf - inf`, and every reference amount is finite).

The regex matcher below is a literal model of CPython `re` backtracking on
this particular pattern, anchored at the start of the line (`match`):
  * the four fixed-width pieces `\d{4}`, `-`, `\d{2}` consume seven chars;
  * `\s+` is greedy: it first takes the maximal whitespace run and gives
    characters back one at a time when the rest of the pattern fails;
  * `.+?` is lazy: it takes one character, then grows one character at a
    time; `.` matches any character except a newline;
  * each `([\d,]+\.\d{2})` group and the inner `\s+` separators are
    deterministic in this pattern: `[\d,]+` is greedy and is followed by
    `.`, which is not in `[\d,]`, so giving back a character always fails
    immediately; likewise an inner `\s+` is followed by `[\d,]`, which is
    never whitespace;
  * the pattern is a prefix match: anything may follow group 7.
We restrict `\d` to the ASCII digits and `\s` to the six ASCII whitespace
characters, the only ones occurring in the documents the program reads.
-/

namespace Recon

/-- ASCII whitespace, the characters Python `\s` matches on such input. -/
def isPySpace (c : Char) : Bool :=
  c = ' ' || c = '\t' || c = '\n' || c = '\r' || c = '\x0b' || c = '\x0c'

/-- Character class `[\d,]` of the amount groups. -/
def isDC (c : Char) : Bool := c.isDigit || c = ','

/-- One `([\d,]+\.\d{2})` group at the current position: greedy `[\d,]+`
run, then a dot and exactly two digits.  Returns the captured text and the
remaining input. -/
def matchField (l : List Char) : Option (List Char × List Char) :=
  let run := l.takeWhile isDC
  let rest := l.dropWhile isDC
  if run.isEmpty then none
  else
    match rest with
    | x :: d1 :: d2 :: rest2 =>
        if x = '.' && d1.isDigit && d2.isDigit then
          some (run ++ ['.', d1, d2], rest2)
        else none
    | _ => none

/-- `n` repetitions of `\s+` followed by an amount group; returns the list
of captures and the remaining input. -/
def fieldsAux : Nat → List Char → Option (List (List Char) × List Char)
  | 0, l => some ([], l)
  | n + 1, l =>
      let ws := l.takeWhile isPySpace
      let rest := l.dropWhile isPySpace
      if ws.isEmpty then none
      else
        match matchField rest with
        | none => none
        | some (cap, rest2) =>
            match fieldsAux n rest2 with
            | none => none
            | some (caps, rest3) => some (cap :: caps, rest3)

/-- The tail of the pattern after `.+?`: six amount groups, the last five
preceded by `\s+`.  Returns the six captures (regex groups 2 to 7). -/
def tail6 (l : List Char) : Option (List (List Char)) :=
  match matchField l with
  | none => none
  | some (cap, rest) =>
      match fieldsAux 5 rest with
      | none => none
      | some (caps, _) => some (cap :: caps)

/-- The lazy `.+?` followed by the six groups: drop at least one character
(`.` refuses a newline), shortest gap first, exactly the order in which the
backtracking engine grows a lazy repetition. -/
def findTail : List Char → Option (List (List Char))
  | [] => none
  | c :: rest =>
      if c = '\n' then none
      else
        match tail6 rest with
        | some caps => some caps
        | none => findTail rest

/-- Backtracking of the greedy leading `\s+` against the lazy `.+?`.
`revWs` is the not-yet-given-back part of the whitespace run, last
character first; `rest` is the input after it.  Each iteration runs the
lazy search with the current run, then gives one whitespace character back
to the `.+?` region, stopping when the run would become empty (`\s+` needs
at least one character). -/
def wsGapSearch : List Char → List Char → Option (List (List Char))
  | [], _ => none
  | c :: revRest, rest =>
      match findTail rest with
      | some caps => some caps
      | none => wsGapSearch revRest (c :: rest)

/-- The anchored prefix `(\d{4}-\d{2})`: seven characters, hyphen fixed. -/
def codeSplit : List Char → Option (List Char × List Char)
  | a :: b :: c :: d :: e :: f :: g :: rest =>
      if a.isDigit && b.isDigit && c.isDigit && d.isDigit && e = '-'
          && f.isDigit && g.isDigit then
        some ([a, b, c, d, e, f, g], rest)
      else none
  | _ => none

/-- `pattern.match(line)` for the whole regex: the code group and, on
success, the six amount captures (groups 2 to 7). -/
def pmatchLine (s : List Char) : Option (List Char × List (List Char)) :=
  match codeSplit s with
  | none => none
  | some (code, r0) =>
      let ws := r0.takeWhile isPySpace
      let r1 := r0.dropWhile isPySpace
      if ws.isEmpty then none
      else
        match wsGapSearch ws.reverse r1 with
        | some caps => some (code, caps)
        | none => none

/-- `x.replace(",", "")`. -/
def stripCommas (l : List Char) : List Char := l.filter (fun c => c ≠ ',')

/-- Numeric value of a digit string. -/
def natVal (l : List Char) : Nat :=
  l.foldl (fun a c => 10 * a + (c.toNat - 48)) 0

/-- Fuel-bounded binary digit count (the fuel argument only bounds the
recursion; `n` itself is always enough fuel). -/
def bitLenAux : Nat → Nat → Nat
  | 0, _ => 0
  | fuel + 1, n => if n = 0 then 0 else bitLenAux fuel (n / 2) + 1

/-- Number of binary digits of `n` (0 for 0). -/
def bitLen (n : Nat) : Nat := bitLenAux n n

/-- A CPython float: an IEEE-754 binary64 value.  A finite double is
carried as its exact rational value (always a dyadic rational with a
53-bit significand).  Negative zero is collapsed onto zero (see the file
header); NaN is present for totality but unreachable in this program. -/
inductive PyF where
  | finite : ℚ → PyF
  | pinf : PyF
  | ninf : PyF
  | nan : PyF
deriving DecidableEq, Repr

/-- `2 ^ e ≤ a / b` for an integer exponent. -/
def pow2Le (e : Int) (a b : Nat) : Bool :=
  if 0 ≤ e then b * 2 ^ e.toNat ≤ a else b ≤ a * 2 ^ (-e).toNat

/-- Round `num / den` (nonnegative, `den > 0`) to the nearest natural
number, ties to even. -/
def rheNat (num den : Nat) : Nat :=
  let d := num / den
  let r := num % den
  if 2 * r < den then d
  else if den < 2 * r then d + 1
  else if d % 2 = 0 then d else d + 1

/-- Round the positive rational `a / b` to the nearest binary64 value,
ties to even: find the exponent `e` with `2 ^ e ≤ a / b < 2 ^ (e + 1)`,
round the 53-bit significand, renormalize if rounding carried over, and
overflow to infinity past the binary64 exponent range; values below the
normal range are rounded on the fixed subnormal grid `2 ^ (-1074)`. -/
def roundPosDbl (a b : Nat) : PyF :=
  let e0 : Int := (bitLen a : Int) - (bitLen b : Int)
  let e : Int := if pow2Le e0 a b then e0 else e0 - 1
  if 1023 < e then PyF.pinf
  else if e < -1022 then
    let m := rheNat (a * 2 ^ 1074) b
    PyF.finite (mkRat m (2 ^ 1074))
  else
    let m := if e ≤ 52 then rheNat (a * 2 ^ (52 - e).toNat) b
             else rheNat a (b * 2 ^ (e - 52).toNat)
    let m2 := if m = 2 ^ 53 then 2 ^ 52 else m
    let e2 := if m = 2 ^ 53 then e + 1 else e
    if 1023 < e2 then PyF.pinf
    else if e2 ≤ 52 then PyF.finite (mkRat m2 (2 ^ (52 - e2).toNat))
    else PyF.finite ((m2 * 2 ^ (e2 - 52).toNat : Nat) : ℚ)

/-- Round an arbitrary rational to the nearest binary64 value. -/
def roundDbl (q : ℚ) : PyF :=
  if q = 0 then PyF.finite 0
  else if 0 < q then roundPosDbl q.num.natAbs q.den
  else
    match roundPosDbl q.num.natAbs q.den with
    | PyF.finite r => PyF.finite (-r)
    | _ => PyF.ninf

/-- Float negation (exact). -/
def pfNeg : PyF → PyF
  | PyF.finite q => PyF.finite (-q)
  | PyF.pinf => PyF.ninf
  | PyF.ninf => PyF.pinf
  | PyF.nan => PyF.nan

/-- Float absolute value (exact). -/
def pfAbs : PyF → PyF
  | PyF.finite q => PyF.finite |q|
  | PyF.nan => PyF.nan
  | _ => PyF.pinf

/-- Float subtraction: the exact difference of finite operands, rounded
to the nearest double; IEEE rules for the non-finite cases. -/
def pfSub : PyF → PyF → PyF
  | PyF.nan, _ => PyF.nan
  | _, PyF.nan => PyF.nan
  | PyF.finite a, PyF.finite b => roundDbl (a - b)
  | PyF.finite _, PyF.pinf => PyF.ninf
  | PyF.finite _, PyF.ninf => PyF.pinf
  | PyF.pinf, PyF.finite _ => PyF.pinf
  | PyF.pinf, PyF.ninf => PyF.pinf
  | PyF.pinf, PyF.pinf => PyF.nan
  | PyF.ninf, PyF.finite _ => PyF.ninf
  | PyF.ninf, PyF.pinf => PyF.ninf
  | PyF.ninf, PyF.ninf => PyF.nan

/-- Float strict comparison (exact on finite values; NaN compares
false). -/
def pfLt : PyF → PyF → Bool
  | PyF.nan, _ => false
  | _, PyF.nan => false
  | PyF.finite a, PyF.finite b => a < b
  | PyF.finite _, PyF.pinf => true
  | PyF.finite _, PyF.ninf => false
  | PyF.pinf, _ => false
  | PyF.ninf, PyF.ninf => false
  | PyF.ninf, _ => true

/-- The Python comparison `x > 0` (exact). -/
def pfGtZero : PyF → Bool
  | PyF.finite q => 0 < q
  | PyF.pinf => true
  | _ => false

/-- Python `float(x)` on the unsigned decimal literals this program feeds
it (`digits* [. digits*]`, at least one digit): the decimal value,
correctly rounded to the nearest double (overflowing to infinity on long
digit strings); `none` models the `ValueError` branch on any other
shape. -/
def pyFloat (l : List Char) : Option PyF :=
  let intPart := l.takeWhile Char.isDigit
  let rest := l.dropWhile Char.isDigit
  match rest with
  | [] => if intPart.isEmpty then none else some (roundDbl (natVal intPart))
  | c :: frac =>
      if c = '.' && frac.all Char.isDigit && (!intPart.isEmpty || !frac.isEmpty)
      then
        some (roundDbl ((natVal intPart : ℚ) +
          (natVal frac : ℚ) / (10 : ℚ) ^ frac.length))
      else none

/-- One parsed TB line. -/
structure LedgerRecord where
  code : String
  amount : PyF
deriving DecidableEq, Repr

/-- The body of the extraction loop for one line: regex match, then
`balance_debit = float(group(6).replace(",",""))`,
`balance_credit = float(group(7).replace(",",""))`,
`amount = balance_debit if balance_debit > 0 else -balance_credit`.
`none` covers both a failed match (line skipped silently) and the
`except` branch (warning, line skipped). -/
def parseLine (s : List Char) : Option LedgerRecord :=
  match pmatchLine s with
  | none => none
  | some (code, caps) =>
      match caps[4]?, caps[5]? with
      | some g6, some g7 =>
          match pyFloat (stripCommas g6), pyFloat (stripCommas g7) with
          | some bd, some bc =>
              some ⟨String.mk code, if pfGtZero bd then bd else pfNeg bc⟩
          | _, _ => none
      | _, _ => none

/-- The line boundaries recognized by `str.splitlines()`. -/
def isLineBoundary (c : Char) : Bool :=
  c = '\n' || c = '\r' || c = '\x0b' || c = '\x0c' || c = '\x1c' ||
  c = '\x1d' || c = '\x1e' || c = '\x85' || c = '\u2028' || c = '\u2029'

/-- `text.splitlines()`: split at every line boundary, with `\r\n`
counting as a single boundary and a trailing boundary adding no empty
final line. -/
def splitLinesPy : List Char → List (List Char)
  | [] => []
  | '\r' :: '\n' :: rest => [] :: splitLinesPy rest
  | c :: rest =>
      if isLineBoundary c then [] :: splitLinesPy rest
      else
        match splitLinesPy rest with
        | [] => [[c]]
        | line :: more => (c :: line) :: more

/-- The whole extraction loop: every line through the regex, matching
lines contribute one record each, in text order. -/
def parseText (text : List Char) : List LedgerRecord :=
  (splitLinesPy text).filterMap parseLine

/-- The `tb_code_map` dict: semantic name to ledger code, in insertion
order (Python dicts preserve it, and the reconciliation loop iterates
`tb_code_map.items()`). -/
def tbCodeMap : List (String × String) :=
  [("Bank1 amt", "1112-01"),
   ("Bank2 amt", "1113-01"),
   ("Bank3 amt", "1114-01"),
   ("Bank4 amt", "1115-01"),
   ("Bank5 amt", "1116-01"),
   ("Bank6 amt", "1117-01"),
   ("Bank7 amt", "1118-01"),
   ("Bank8 amt", "1119-01"),
   ("PND1 amt", "2132-01"),
   ("PND3 amt", "2132-02"),
   ("PND53 amt", "2132-02"),
   ("PP30 amt", "2137-00"),
   ("SSO amt", "2131-04")]

/-- The `pdf_actual_values` dict; a stored `None` is `none`, and each
numeric literal is the double nearest its decimal value, as the Python
compiler produces it. -/
def pdfActualValues : List (String × Option PyF) :=
  [("Bank1 amt", some (roundDbl (533152094 / 100))),
   ("Bank2 amt", none),
   ("Bank3 amt", none),
   ("Bank4 amt", none),
   ("Bank5 amt", none),
   ("Bank6 amt", none),
   ("Bank7 amt", none),
   ("Bank8 amt", none),
   ("PND1 amt", some (roundDbl 1000)),
   ("PND3 amt", some (roundDbl 165)),
   ("PND53 amt", some (roundDbl 540)),
   ("PP30 amt", some (roundDbl (4414507 / 100))),
   ("SSO amt", none)]

/-- `pdf_actual_values.get(name)`: `None` for a missing key or a stored
`None`. -/
def pdfActualGet (name : String) : Option PyF :=
  (pdfActualValues.lookup name).getD none

/-- The `file_map` dict: eight comprehension entries, then five updates. -/
def fileMap (company month : String) : List (String × String) :=
  ((List.range 8).map fun i =>
    ("Bank" ++ toString (i + 1) ++ " amt",
     "bank" ++ toString (i + 1) ++ "_" ++ company.toLower ++ "_" ++ month ++ ".pdf"))
  ++ [("PND1 amt", "0.PND1_" ++ month ++ ".pdf"),
      ("PND3 amt", "1.PND3_" ++ month ++ ".pdf"),
      ("PND53 amt", "2.PND53_" ++ month ++ ".pdf"),
      ("PP30 amt", "ภ.พ.30_" ++ month ++ ".pdf"),
      ("SSO amt", "สปส1-10_" ++ month ++ ".pdf")]

/-- `file_map.get(name, "")`. -/
def fileMapGet (company month name : String) : String :=
  ((fileMap company month).lookup name).getD ""

/-- `df_tb[df_tb["Code"] == tb_code]["Amount"].iloc[0]` if the filtered
frame is non-empty, else `None`: filter the parsed records by code and
take the amount of the first remaining row. -/
def lookupTbAmt (recs : List LedgerRecord) (code : String) : Option PyF :=
  ((recs.filter fun r => r.code = code).head?).map LedgerRecord.amount

/-- The verdict text:
`"Match> Correct" if abs(abs(tb_amt) - abs(pdf_amt)) < 1e-2 else
"Mismatch Wrong"` when both amounts are present, `""` otherwise; the
absolute values are exact, the subtraction rounds, and `1e-2` is the
double nearest 1/100. -/
def computeResult (tbAmt pdfAmt : Option PyF) : String :=
  match tbAmt, pdfAmt with
  | some t, some p =>
      if pfLt (pfAbs (pfSub (pfAbs t) (pfAbs p))) (roundDbl (1 / 100)) then
        "Match> Correct"
      else "Mismatch Wrong"
  | _, _ => ""

/-- One entry of the `results` list (one row of `df_result`). -/
structure RawRow where
  name : String
  sourceFile : String
  tbCode : String
  tbAmt : Option PyF
  pdfAmt : Option PyF
  result : String
  staffName : String
deriving DecidableEq, Repr

/-- The reconciliation loop: one row appended per `tb_code_map` entry, in
dict order; the staff name is the single value resolved before the loop,
replicated into every row. -/
def reconcile (recs : List LedgerRecord) (company month staffName : String) :
    List RawRow :=
  tbCodeMap.map fun nc =>
    let tbAmt := lookupTbAmt recs nc.2
    let pdfAmt := pdfActualGet nc.1
    { name := nc.1
      sourceFile := fileMapGet company month nc.1
      tbCode := nc.2
      tbAmt := tbAmt
      pdfAmt := pdfAmt
      result := computeResult tbAmt pdfAmt
      staffName := staffName }

/-- Decimal digit character. -/
def digitCh (d : Nat) : Char := Char.ofNat (48 + d)

/-- Insert a comma after every three characters of a least-significant-
digit-first digit list: the thousands grouping of Python `{:,.2f}`. -/
def group3 : List Char → List Char
  | [] => []
  | [a] => [a]
  | [a, b] => [a, b]
  | [a, b, c] => [a, b, c]
  | a :: b :: c :: d :: rest => a :: b :: c :: ',' :: group3 (d :: rest)

/-- The integer part of the formatted amount: decimal digits of `n`,
grouped in threes with commas. -/
def natCommaGrouped (n : Nat) : List Char :=
  if n = 0 then ['0'] else (group3 ((Nat.digits 10 n).map digitCh)).reverse

/-- Two-digit zero-padded fraction part. -/
def pad2 (k : Nat) : List Char := [digitCh (k / 10 % 10), digitCh (k % 10)]

/-- Round a rational to the nearest integer, ties to even (the rounding
of decimal formatting). -/
def rheInt (q : ℚ) : Int :=
  let n := Int.fdiv q.num q.den
  let r := q - (n : ℚ)
  if r < 1 / 2 then n
  else if (1 : ℚ) / 2 < r then n + 1
  else if n % 2 = 0 then n else n + 1

/-- Python `f"{x:,.2f}"` on a finite double: the exact value of the
double, rounded to two decimal places with ties to even (CPython formats
through correctly rounded decimal conversion), sign, thousands-grouped
integer part, dot, two fraction digits.  The sign of an IEEE negative
zero is not tracked (see the file header). -/
def formatMoney (q : ℚ) : String :=
  let c : Int := rheInt (q * 100)
  let n : Nat := c.natAbs
  let body := natCommaGrouped (n / 100) ++ ['.'] ++ pad2 (n % 100)
  String.mk (if c < 0 then '-' :: body else body)

/-- A row of `df_result` after the display-formatting step. -/
structure FormattedRow where
  name : String
  sourceFile : String
  tbCode : String
  tbAmtStr : String
  pdfAmt : Option PyF
  result : String
  staffName : String
deriving DecidableEq, Repr

/-- The formatting `.apply` on the TB-amount column:
`f"{x:,.2f}" if pd.notnull(x) and not isnan(x) and not isinf(x) else ""`:
an absent amount is `None` (`pd.notnull` fails), an infinite amount fails
the `isinf` guard (reachable via `float()` overflow on a very long digit
field), NaN fails both `pd.notnull` and the `isnan` guard; each of these
renders the empty string.  Every other column passes through unchanged;
in particular the `PDF actual amount` column stays a raw optional numeric
value. -/
def formatRow (r : RawRow) : FormattedRow :=
  { name := r.name
    sourceFile := r.sourceFile
    tbCode := r.tbCode
    tbAmtStr := match r.tbAmt with
      | none => ""
      | some (PyF.finite q) => formatMoney q
      | some PyF.pinf => ""
      | some PyF.ninf => ""
      | some PyF.nan => ""
    pdfAmt := r.pdfAmt
    result := r.result
    staffName := r.staffName }

/-- Outcome of a run that has reached the extraction step: either the
fatal `st.error(...); st.stop()` on an empty `tb_data` (the
`NoLedgerLinesFound` condition), or the rendered result table. -/
inductive RunOutcome where
  | fatalNoLedgerLines : RunOutcome
  | report : List FormattedRow → RunOutcome
deriving DecidableEq, Repr

/-- The pipeline from extracted text to the outcome: parse all lines; if
no line matched, stop fatally before building any result row; otherwise
reconcile and format. -/
def runFromText (text : List Char) (company month staffName : String) :
    RunOutcome :=
  let tb := parseText text
  if tb.isEmpty then RunOutcome.fatalNoLedgerLines
  else RunOutcome.report ((reconcile tb company month staffName).map formatRow)

/-- The amount-derivation rule of the specification, as a function of the
two balance columns alone. -/
def amountFromBalances (bd bc : PyF) : PyF :=
  if pfGtZero bd then bd else pfNeg bc

/-- Numeric value of capture `i` of a match, the way the loop converts it:
comma removal, then decimal parsing. -/
def capAmount (caps : List (List Char)) (i : Nat) : Option PyF :=
  (caps[i]?).bind fun f => pyFloat (stripCommas f)

/-- Declarative form of the `[\d,]+\.\d{2}` field language: a non-empty
run of digits and commas, a dot, two digits. -/
def FieldShape (f : List Char) : Prop :=
  ∃ run d1 d2, f = run ++ ['.', d1, d2] ∧ run ≠ [] ∧
    (∀ c ∈ run, isDC c = true) ∧ d1.isDigit = true ∧ d2.isDigit = true

/-- Declarative form of `n` repetitions of `\s+` plus a field, with
arbitrary trailing content after the last one. -/
def WsFieldsFrom : Nat → List Char → Prop
  | 0, _ => True
  | n + 1, l => ∃ w f rest, l = w ++ f ++ rest ∧ w ≠ [] ∧
      (∀ c ∈ w, isPySpace c = true) ∧ FieldShape f ∧ WsFieldsFrom n rest

/-- Declarative form of the pattern tail: six whitespace-separated fields
starting at the current position, then anything. -/
def TailLang (l : List Char) : Prop :=
  ∃ f rest, l = f ++ rest ∧ FieldShape f ∧ WsFieldsFrom 5 rest

/-- Declarative form of the whole accepted-line language: the hyphenated
code, at least one whitespace character, a non-empty newline-free region,
then the six fields and arbitrary trailing content. -/
def LineGrammar (s : List Char) : Prop :=
  ∃ a b c d f g ws gap t,
    s = a :: b :: c :: d :: '-' :: f :: g :: (ws ++ gap ++ t) ∧
    a.isDigit = true ∧ b.isDigit = true ∧ c.isDigit = true ∧
    d.isDigit = true ∧ f.isDigit = true ∧ g.isDigit = true ∧
    ws ≠ [] ∧ (∀ x ∈ ws, isPySpace x = true) ∧
    gap ≠ [] ∧ (∀ x ∈ gap, x ≠ '\n') ∧
    TailLang t

/-- Checker for the thousands-grouped digit language, on the reversed
integer part: one to three digits, then repeatedly a comma and three more
digits (reading right to left). -/
def revGroupedDigits : List Char → Bool
  | [] => false
  | [a] => a.isDigit
  | [a, b] => a.isDigit && b.isDigit
  | [a, b, c] => a.isDigit && b.isDigit && c.isDigit
  | a :: b :: c :: d :: rest =>
      a.isDigit && b.isDigit && c.isDigit && (d = ',') && revGroupedDigits rest

/-- Checker for a grouped integer part followed by a dot and exactly two
digits. -/
def moneyDigits (l : List Char) : Bool :=
  match l.reverse with
  | d2 :: d1 :: c :: revInt =>
      d2.isDigit && d1.isDigit && (c = '.') && revGroupedDigits revInt
  | _ => false

/-- Checker for the full money format: an optional minus sign, a
thousands-grouped integer part, a dot, exactly two fraction digits. -/
def isMoneyFormat (s : String) : Bool :=
  match s.data with
  | [] => false
  | c :: rest => if c = '-' then moneyDigits rest else moneyDigits (c :: rest)

end Recon

/-
Batteries marks the arithmetic on `Rat` irreducible for elaboration; the
concrete evaluations below go through the kernel, so restore the default
transparency.
-/
set_option allowUnsafeReducibility true in
attribute [semireducible] Rat.add Rat.mul Rat.inv Rat.sub Rat.ofScientific

namespace Recon

lemma filter_head?_eq_find? {α : Type} (p : α → Bool) :
    ∀ l : List α, (l.filter p).head? = l.find? p := by
  intro l
  induction l with
  | nil => rfl
  | cons a l ih =>
      by_cases h : p a <;> simp [List.filter_cons, List.find?_cons, h, ih]

lemma mem_reconcile {recs : List LedgerRecord} {company month staff : String}
    {row : RawRow} (h : row ∈ reconcile recs company month staff) :
    ∃ nc ∈ tbCodeMap,
      row = { name := nc.1
              sourceFile := fileMapGet company month nc.1
              tbCode := nc.2
              tbAmt := lookupTbAmt recs nc.2
              pdfAmt := pdfActualGet nc.1
              result := computeResult (lookupTbAmt recs nc.2) (pdfActualGet nc.1)
              staffName := staff } := by
  simp only [reconcile, List.mem_map] at h
  obtain ⟨nc, hnc, hrow⟩ := h
  exact ⟨nc, hnc, hrow.symm⟩

lemma pfAbs_pfNeg (t : PyF) : pfAbs (pfNeg t) = pfAbs t := by
  cases t <;> simp [pfNeg, pfAbs, abs_neg]

lemma pfLt_irrefl (x : PyF) : pfLt x x = false := by
  cases x <;> simp [pfLt]

/-- Claim C1 counterexample: at the boundary the double comparison can go
the other way than the claimed exactly-0.01-yields-Mismatch rule: the
parsed balance 1,000.01 reconciled against the hard-coded expected
1000.00 (PND1) differs by exactly 0.01 in decimal, yet the rounded double
difference lies strictly below the double nearest 0.01 and the program
prints the Match text. -/
theorem exact_boundary_match_counterexample :
    pyFloat (stripCommas "1,000.01".data) =
      some (PyF.finite (4398090491569111 / 2 ^ 42)) ∧
    parseLine "2132-01 WHT 0.00 0.00 0.00 0.00 1,000.01 0.00".data =
      some ⟨"2132-01", PyF.finite (4398090491569111 / 2 ^ 42)⟩ ∧
    pdfActualGet "PND1 amt" = some (PyF.finite 1000) ∧
    |(100001 : ℚ) / 100 - 1000| = 1 / 100 ∧
    computeResult (some (PyF.finite (4398090491569111 / 2 ^ 42)))
      (some (PyF.finite 1000)) = "Match> Correct" := by
  refine ⟨by decide, by decide, by decide, ?_, by decide⟩
  rw [show (100001 : ℚ) / 100 - 1000 = 1 / 100 by norm_num,
    abs_of_nonneg (by norm_num : (0 : ℚ) ≤ 1 / 100)]

/-- Claim C1 as amended: every row's verdict comes from the tolerance
comparison; with both amounts present the verdict is the Match text
exactly when the double computation `abs(abs(t) - abs(p))` — absolute
values exact, subtraction rounded to the nearest double — is strictly
below the double nearest 0.01, namely 5764607523034235/2^59; a computed
difference exactly equal to that threshold gives the Mismatch text
(strict comparison), and negating the stored ledger amount never changes
the verdict.  A decimal difference of exactly 0.01 may round below the
threshold and match (see the counterexample). -/
theorem match_verdict_double_tolerance :
    (∀ recs company month staff row, row ∈ reconcile recs company month staff →
        row.result = computeResult row.tbAmt row.pdfAmt) ∧
    roundDbl (1 / 100) = PyF.finite (5764607523034235 / 2 ^ 59) ∧
    (∀ t p : PyF,
        (computeResult (some t) (some p) = "Match> Correct" ↔
          pfLt (pfAbs (pfSub (pfAbs t) (pfAbs p)))
            (PyF.finite (5764607523034235 / 2 ^ 59)) = true) ∧
        (pfAbs (pfSub (pfAbs t) (pfAbs p)) =
            PyF.finite (5764607523034235 / 2 ^ 59) →
          computeResult (some t) (some p) = "Mismatch Wrong") ∧
        computeResult (some (pfNeg t)) (some p) =
          computeResult (some t) (some p)) := by
  have hthr : roundDbl (1 / 100) = PyF.finite (5764607523034235 / 2 ^ 59) := by
    decide
  refine ⟨?_, hthr, ?_⟩
  · intro recs company month staff row h
    obtain ⟨nc, _, hrow⟩ := mem_reconcile h
    subst hrow
    rfl
  · intro t p
    refine ⟨?_, ?_, ?_⟩
    · simp only [computeResult, hthr]
      cases hlt : pfLt (pfAbs (pfSub (pfAbs t) (pfAbs p)))
          (PyF.finite (5764607523034235 / 2 ^ 59)) with
      | true => simp
      | false =>
          rw [if_neg (by simp)]
          constructor
          · intro he; exact absurd he (by decide)
          · intro he; exact absurd he (by simp)
    · intro heq
      simp only [computeResult, hthr, heq]
      rw [if_neg (by rw [pfLt_irrefl]; simp)]
    · simp only [computeResult, pfAbs_pfNeg]

/-- Concrete instances of the amended C1: equal doubles match, a computed
difference exactly at the threshold mismatches, and the verdict ignores
the stored sign. -/
theorem match_verdict_double_tolerance_witness :
    computeResult (some (PyF.finite 1000)) (some (PyF.finite 1000)) =
      "Match> Correct" ∧
    computeResult (some (PyF.finite (5764607523034235 / 2 ^ 59)))
      (some (PyF.finite 0)) = "Mismatch Wrong" ∧
    computeResult (some (pfNeg (PyF.finite 1000))) (some (PyF.finite 1000)) =
      computeResult (some (PyF.finite 1000)) (some (PyF.finite 1000)) :=
  ⟨(match_verdict_double_tolerance.2.2 (PyF.finite 1000)
      (PyF.finite 1000)).1.mpr (by decide),
   (match_verdict_double_tolerance.2.2
      (PyF.finite (5764607523034235 / 2 ^ 59)) (PyF.finite 0)).2.1 (by decide),
   (match_verdict_double_tolerance.2.2 (PyF.finite 1000)
      (PyF.finite 1000)).2.2⟩

/-- Claim C2: a reconciliation row carries the empty verdict exactly when
its ledger amount is absent (no parsed record has the row's code) or its
expected amount is absent, and then the verdict is neither the Match nor
the Mismatch text. -/
theorem indeterminate_verdict_iff_absent :
    ∀ recs company month staff row, row ∈ reconcile recs company month staff →
      (row.result = "" ↔ row.tbAmt = none ∨ row.pdfAmt = none) ∧
      (row.tbAmt = none ↔ ∀ rec ∈ recs, rec.code ≠ row.tbCode) ∧
      (row.tbAmt = none ∨ row.pdfAmt = none →
        row.result ≠ "Match> Correct" ∧ row.result ≠ "Mismatch Wrong") := by
  intro recs company month staff row h
  obtain ⟨nc, _, hrow⟩ := mem_reconcile h
  subst hrow
  refine ⟨?_, ?_, ?_⟩
  · cases htb : lookupTbAmt recs nc.2 with
    | none => simp [computeResult, htb]
    | some t =>
        cases hpdf : pdfActualGet nc.1 with
        | none => simp [computeResult, htb, hpdf]
        | some p =>
            simp only [computeResult, htb, hpdf]
            constructor
            · intro hres
              exfalso
              cases hlt : pfLt (pfAbs (pfSub (pfAbs t) (pfAbs p)))
                  (roundDbl (1 / 100)) with
              | true =>
                  rw [if_pos hlt] at hres
                  exact absurd hres (by decide)
              | false =>
                  rw [if_neg (by rw [hlt]; simp)] at hres
                  exact absurd hres (by decide)
            · rintro (h1 | h1) <;> exact absurd h1 (by simp)
  · simp only [lookupTbAmt, Option.map_eq_none', List.head?_eq_none_iff,
      List.filter_eq_nil_iff, decide_eq_true_eq]
  · intro habs
    have hres : computeResult (lookupTbAmt recs nc.2) (pdfActualGet nc.1) = "" := by
      rcases habs with h1 | h1
      · have h2 : lookupTbAmt recs nc.2 = none := h1
        rw [h2]; cases pdfActualGet nc.1 <;> rfl
      · have h2 : pdfActualGet nc.1 = none := h1
        rw [h2]; cases lookupTbAmt recs nc.2 <;> rfl
    constructor
    · show computeResult _ _ ≠ _
      rw [hres]; decide
    · show computeResult _ _ ≠ _
      rw [hres]; decide

/-- Concrete instance of C2: with no parsed records the ledger amount of
the first row is absent, so its verdict is empty. -/
theorem indeterminate_verdict_iff_absent_witness :
    computeResult (lookupTbAmt [] "1112-01") (pdfActualGet "Bank1 amt") = "" :=
  (indeterminate_verdict_iff_absent [] "c" "m" "s"
    { name := "Bank1 amt"
      sourceFile := fileMapGet "c" "m" "Bank1 amt"
      tbCode := "1112-01"
      tbAmt := lookupTbAmt [] "1112-01"
      pdfAmt := pdfActualGet "Bank1 amt"
      result := computeResult (lookupTbAmt [] "1112-01") (pdfActualGet "Bank1 amt")
      staffName := "s" }
    (List.mem_map.mpr ⟨("Bank1 amt", "1112-01"), by decide, rfl⟩)).1.mpr
    (Or.inl rfl)

/-- Claim C4: whatever the parsed records, the reconciliation output has
exactly thirteen rows, one per reference-table entry, and their names are
the table names in declaration order. -/
theorem one_row_per_reference_entry :
    ∀ recs company month staff,
      (reconcile recs company month staff).length = 13 ∧
      (reconcile recs company month staff).map RawRow.name =
        tbCodeMap.map Prod.fst ∧
      (reconcile recs company month staff).map RawRow.name =
        ["Bank1 amt", "Bank2 amt", "Bank3 amt", "Bank4 amt", "Bank5 amt",
         "Bank6 amt", "Bank7 amt", "Bank8 amt", "PND1 amt", "PND3 amt",
         "PND53 amt", "PP30 amt", "SSO amt"] := by
  intro recs company month staff
  refine ⟨rfl, ?_, rfl⟩
  simp [reconcile, tbCodeMap]

/-- Claim C5: every reference lookup of a ledger code resolves to the
first parsed record carrying that code, and the PND3 and PND53 rows
(positions 9 and 10, both coded 2132-02) therefore always carry the same
ledger amount. -/
theorem first_record_wins :
    (∀ (recs : List LedgerRecord) (code : String),
        lookupTbAmt recs code =
          (recs.find? fun r => r.code = code).map LedgerRecord.amount) ∧
    (∀ recs company month staff,
      ((reconcile recs company month staff)[9]?).map RawRow.tbAmt =
        ((reconcile recs company month staff)[10]?).map RawRow.tbAmt ∧
      ((reconcile recs company month staff)[9]?).map RawRow.name =
        some "PND3 amt" ∧
      ((reconcile recs company month staff)[10]?).map RawRow.name =
        some "PND53 amt" ∧
      ((reconcile recs company month staff)[9]?).map RawRow.tbCode =
        some "2132-02" ∧
      ((reconcile recs company month staff)[10]?).map RawRow.tbCode =
        some "2132-02") := by
  constructor
  · intro recs code
    rw [lookupTbAmt, filter_head?_eq_find?]
  · intro recs company month staff
    exact ⟨rfl, rfl, rfl, rfl, rfl⟩

/-- Claim C8: if parsing produced no ledger record, the run stops with the
fatal no-lines condition: it never emits a report, in particular not one
of all-indeterminate rows. -/
theorem empty_parse_aborts_run :
    ∀ text company month staff, parseText text = [] →
      runFromText text company month staff = RunOutcome.fatalNoLedgerLines ∧
      ∀ rows, runFromText text company month staff ≠ RunOutcome.report rows := by
  intro text company month staff h
  have hrun : runFromText text company month staff =
      RunOutcome.fatalNoLedgerLines := by
    simp [runFromText, h]
  exact ⟨hrun, fun rows hr => by rw [hrun] at hr; exact RunOutcome.noConfusion hr⟩

/-- Concrete instance of C8: a document with no ledger-shaped line aborts
fatally. -/
theorem empty_parse_aborts_run_witness :
    runFromText "TRIAL BALANCE REPORT\npage 1".data "HERCULES" "202504" "s" =
      RunOutcome.fatalNoLedgerLines :=
  (empty_parse_aborts_run "TRIAL BALANCE REPORT\npage 1".data
    "HERCULES" "202504" "s" (by decide)).1

lemma isEmpty_false_of_ne_nil {α : Type} {l : List α} (h : l ≠ []) :
    l.isEmpty = false := by
  cases l with
  | nil => exact absurd rfl h
  | cons a t => rfl

lemma takeWhile_append_all (p : Char → Bool) :
    ∀ (l : List Char) (c : Char) (t : List Char), (∀ x ∈ l, p x = true) →
      p c = false →
      (l ++ c :: t).takeWhile p = l ∧ (l ++ c :: t).dropWhile p = c :: t := by
  intro l
  induction l with
  | nil =>
      intro c t _ hc
      simp [List.takeWhile_cons, List.dropWhile_cons, hc]
  | cons a l ih =>
      intro c t hall hc
      have ha : p a = true := hall a (by simp)
      have hr := ih c t (fun x hx => hall x (by simp [hx])) hc
      simp [List.takeWhile_cons, List.dropWhile_cons, ha, hr.1, hr.2]

lemma dropWhile_head_false {p : Char → Bool} :
    ∀ (l : List Char) {c : Char}, (l.dropWhile p).head? = some c →
      p c = false := by
  intro l
  induction l with
  | nil => intro c h; simp at h
  | cons a t ih =>
      intro c h
      by_cases ha : p a
      · rw [List.dropWhile_cons_of_pos ha] at h
        exact ih h
      · rw [List.dropWhile_cons_of_neg ha] at h
        simp at h
        rw [← h]
        exact Bool.eq_false_iff.mpr ha

lemma isPySpace_false_of_isDC {c : Char} (h : isDC c = true) :
    isPySpace c = false := by
  have hne : c ≠ ' ' ∧ c ≠ '\t' ∧ c ≠ '\n' ∧ c ≠ '\r' ∧ c ≠ '\x0b' ∧
      c ≠ '\x0c' := by
    rcases Bool.or_eq_true_iff.mp h with hd | he
    · refine ⟨?_, ?_, ?_, ?_, ?_, ?_⟩ <;>
        { intro he1; subst he1; exact absurd hd (by decide) }
    · have hc : c = ',' := of_decide_eq_true he
      subst hc
      exact ⟨by decide, by decide, by decide, by decide, by decide, by decide⟩
  simp [isPySpace, hne.1, hne.2.1, hne.2.2.1, hne.2.2.2.1, hne.2.2.2.2.1,
    hne.2.2.2.2.2]

lemma ne_comma_of_isDigit {c : Char} (h : c.isDigit = true) : c ≠ ',' := by
  intro he
  subst he
  exact absurd h (by decide)

lemma ne_newline_of_isDC {c : Char} (h : isDC c = true) : c ≠ '\n' := by
  intro he
  subst he
  exact absurd h (by decide)

lemma matchField_sound {l cap rest : List Char}
    (h : matchField l = some (cap, rest)) :
    FieldShape cap ∧ l = cap ++ rest := by
  simp only [matchField] at h
  split at h
  · exact absurd h (by simp)
  · rename_i hemp
    split at h
    · rename_i x d1 d2 rest2 hdrop
      split at h
      · rename_i hcond
        simp only [Option.some.injEq, Prod.mk.injEq] at h
        obtain ⟨hcap, hrest⟩ := h
        simp only [Bool.and_eq_true, decide_eq_true_eq] at hcond
        obtain ⟨⟨hx, hd1⟩, hd2⟩ := hcond
        subst hx
        have hne : l.takeWhile isDC ≠ [] := by
          intro hnil
          rw [hnil] at hemp
          exact hemp rfl
        have hl : l = l.takeWhile isDC ++ l.dropWhile isDC :=
          (List.takeWhile_append_dropWhile isDC l).symm
        rw [hdrop] at hl
        refine ⟨⟨l.takeWhile isDC, d1, d2, hcap.symm, hne,
          fun c hc => List.mem_takeWhile_imp hc, hd1, hd2⟩, ?_⟩
        rw [← hcap, ← hrest]
        exact hl.trans (by simp)
      · exact absurd h (by simp)
    · exact absurd h (by simp)

lemma matchField_complete {f : List Char} (hf : FieldShape f)
    (rest : List Char) : matchField (f ++ rest) = some (f, rest) := by
  obtain ⟨run, d1, d2, hfeq, hne, hall, hd1, hd2⟩ := hf
  subst hfeq
  have hsplit := takeWhile_append_all isDC run '.' (d1 :: d2 :: rest) hall
    (by decide)
  have harr : run ++ ['.', d1, d2] ++ rest = run ++ '.' :: d1 :: d2 :: rest := by
    simp
  simp only [matchField, harr, hsplit.1, hsplit.2,
    isEmpty_false_of_ne_nil hne]
  simp [hd1, hd2]

lemma fieldsAux_sound :
    ∀ (n : Nat) (l : List Char) (caps : List (List Char)) (rest : List Char),
      fieldsAux n l = some (caps, rest) →
      caps.length = n ∧ (∀ cap ∈ caps, FieldShape cap) ∧ WsFieldsFrom n l := by
  intro n
  induction n with
  | zero =>
      intro l caps rest h
      simp only [fieldsAux, Option.some.injEq, Prod.mk.injEq] at h
      obtain ⟨h1, _⟩ := h
      subst h1
      exact ⟨rfl, by simp, trivial⟩
  | succ n ih =>
      intro l caps rest h
      simp only [fieldsAux] at h
      split at h
      · exact absurd h (by simp)
      · rename_i hemp
        split at h
        · exact absurd h (by simp)
        · rename_i cap rest2 hmf
          split at h
          · exact absurd h (by simp)
          · rename_i caps2 rest3 haux
            simp only [Option.some.injEq, Prod.mk.injEq] at h
            obtain ⟨hcaps, _⟩ := h
            subst hcaps
            obtain ⟨hshape, hdropeq⟩ := matchField_sound hmf
            obtain ⟨hlen2, hshapes2, hlang2⟩ := ih rest2 caps2 rest3 haux
            refine ⟨by simp [hlen2], ?_, ?_⟩
            · intro c hc
              rcases List.mem_cons.mp hc with h1 | h1
              · subst h1; exact hshape
              · exact hshapes2 c h1
            · refine ⟨l.takeWhile isPySpace, cap, rest2, ?_, ?_, ?_, hshape,
                hlang2⟩
              · have hl : l = l.takeWhile isPySpace ++ l.dropWhile isPySpace :=
                  (List.takeWhile_append_dropWhile isPySpace l).symm
                rw [hdropeq] at hl
                exact hl.trans (by simp)
              · intro hnil; rw [hnil] at hemp; exact hemp rfl
              · exact fun c hc => List.mem_takeWhile_imp hc

lemma fieldsAux_complete :
    ∀ (n : Nat) (l : List Char), WsFieldsFrom n l →
      ∃ caps rest, fieldsAux n l = some (caps, rest) := by
  intro n
  induction n with
  | zero => intro l _; exact ⟨[], l, rfl⟩
  | succ n ih =>
      intro l hlang
      obtain ⟨w, f, rest, hleq, hwne, hwall, hf, hnext⟩ := hlang
      obtain ⟨run, d1, d2, hfeq, hrne, hrall, hd1, hd2⟩ := hf
      cases run with
      | nil => exact absurd rfl hrne
      | cons r rs =>
          have hr : isDC r = true := hrall r (by simp)
          have hcomb : l = w ++ r :: (rs ++ ['.', d1, d2] ++ rest) := by
            rw [hleq, hfeq]; simp
          have hsplit := takeWhile_append_all isPySpace w r
            (rs ++ ['.', d1, d2] ++ rest) hwall (isPySpace_false_of_isDC hr)
          have htake : l.takeWhile isPySpace = w := by rw [hcomb]; exact hsplit.1
          have hdrop : l.dropWhile isPySpace = f ++ rest := by
            rw [hcomb, hsplit.2, hfeq]; simp
          obtain ⟨caps2, rest3, haux⟩ := ih rest hnext
          refine ⟨f :: caps2, rest3, ?_⟩
          have hfshape : FieldShape f :=
            ⟨r :: rs, d1, d2, hfeq, hrne, hrall, hd1, hd2⟩
          simp only [fieldsAux, htake, hdrop, isEmpty_false_of_ne_nil hwne,
            matchField_complete hfshape rest, haux]
          simp

lemma tail6_sound {l : List Char} {caps : List (List Char)}
    (h : tail6 l = some caps) :
    caps.length = 6 ∧ (∀ cap ∈ caps, FieldShape cap) ∧ TailLang l := by
  simp only [tail6] at h
  split at h
  · exact absurd h (by simp)
  · rename_i cap rest hmf
    split at h
    · exact absurd h (by simp)
    · rename_i caps2 rest3 haux
      simp only [Option.some.injEq] at h
      subst h
      obtain ⟨hshape, hleq⟩ := matchField_sound hmf
      obtain ⟨hlen2, hshapes2, hlang2⟩ := fieldsAux_sound 5 rest caps2 rest3 haux
      refine ⟨by simp [hlen2], ?_, cap, rest, hleq, hshape, hlang2⟩
      intro c hc
      rcases List.mem_cons.mp hc with h1 | h1
      · subst h1; exact hshape
      · exact hshapes2 c h1

lemma tail6_complete {l : List Char} (h : TailLang l) :
    ∃ caps, tail6 l = some caps := by
  obtain ⟨f, rest, hleq, hf, hws⟩ := h
  subst hleq
  obtain ⟨caps2, rest3, haux⟩ := fieldsAux_complete 5 rest hws
  refine ⟨f :: caps2, ?_⟩
  simp only [tail6, matchField_complete hf rest, haux]

lemma findTail_sound :
    ∀ (l : List Char) (caps : List (List Char)), findTail l = some caps →
      ∃ gap t, l = gap ++ t ∧ gap ≠ [] ∧ (∀ c ∈ gap, c ≠ '\n') ∧
        tail6 t = some caps := by
  intro l
  induction l with
  | nil => intro caps h; exact absurd h (by simp [findTail])
  | cons c rest ih =>
      intro caps h
      simp only [findTail] at h
      split at h
      · exact absurd h (by simp)
      · rename_i hc
        split at h
        · rename_i caps2 ht
          simp only [Option.some.injEq] at h
          subst h
          exact ⟨[c], rest, by simp, by simp, by simpa using hc, ht⟩
        · obtain ⟨gap, t, hleq, hgne, hgnl, ht⟩ := ih caps h
          refine ⟨c :: gap, t, by simp [hleq], by simp, ?_, ht⟩
          intro x hx
          rcases List.mem_cons.mp hx with h1 | h1
          · subst h1; exact hc
          · exact hgnl x h1

lemma findTail_complete :
    ∀ (gap : List Char), gap ≠ [] → (∀ c ∈ gap, c ≠ '\n') →
      ∀ (t : List Char) (caps : List (List Char)), tail6 t = some caps →
      (findTail (gap ++ t)).isSome = true := by
  intro gap
  induction gap with
  | nil => intro h; exact absurd rfl h
  | cons c gap2 ih =>
      intro _ hnl t caps ht
      have hc : ¬ c = '\n' := hnl c (by simp)
      simp only [List.cons_append, findTail, if_neg hc]
      cases hcase : tail6 (gap2 ++ t) with
      | some caps2 => simp
      | none =>
          cases gap2 with
          | nil =>
              rw [List.nil_append] at hcase
              rw [ht] at hcase
              exact absurd hcase (by simp)
          | cons c2 gap3 =>
              simp only []
              exact ih (by simp) (fun x hx => hnl x (by simp [hx])) t caps ht

lemma wsGapSearch_sound :
    ∀ (revW rest : List Char) (caps : List (List Char)),
      wsGapSearch revW rest = some caps →
      (∀ c ∈ revW, isPySpace c = true) →
      ∃ w gap t, revW.reverse ++ rest = w ++ gap ++ t ∧ w ≠ [] ∧
        (∀ c ∈ w, isPySpace c = true) ∧ gap ≠ [] ∧
        (∀ c ∈ gap, c ≠ '\n') ∧ tail6 t = some caps := by
  intro revW
  induction revW with
  | nil => intro rest caps h; exact absurd h (by simp [wsGapSearch])
  | cons c revRest ih =>
      intro rest caps h hws
      simp only [wsGapSearch] at h
      split at h
      · rename_i caps2 hft
        simp only [Option.some.injEq] at h
        subst h
        obtain ⟨gap, t, hreq, hgne, hgnl, ht⟩ := findTail_sound rest caps2 hft
        refine ⟨(c :: revRest).reverse, gap, t, by rw [hreq]; simp, by simp,
          ?_, hgne, hgnl, ht⟩
        intro x hx
        exact hws x (List.mem_reverse.mp hx)
      · obtain ⟨w, gap, t, heq2, hwne, hwall, hgne, hgnl, ht⟩ :=
          ih (c :: rest) caps h (fun x hx => hws x (by simp [hx]))
        refine ⟨w, gap, t, ?_, hwne, hwall, hgne, hgnl, ht⟩
        rw [← heq2]
        simp

lemma wsGapSearch_reach :
    ∀ (pre suf rest : List Char), suf ≠ [] →
      (findTail (pre.reverse ++ rest)).isSome = true →
      (wsGapSearch (pre ++ suf) rest).isSome = true := by
  intro pre
  induction pre with
  | nil =>
      intro suf rest hsne hft
      cases suf with
      | nil => exact absurd rfl hsne
      | cons c s2 =>
          simp only [List.nil_append, wsGapSearch]
          rw [List.reverse_nil, List.nil_append] at hft
          cases hcase : findTail rest with
          | some caps => simp
          | none => rw [hcase] at hft; exact absurd hft (by simp)
  | cons c pre2 ih =>
      intro suf rest hsne hft
      simp only [List.cons_append, wsGapSearch]
      cases hcase : findTail rest with
      | some caps => simp
      | none =>
          simp only []
          refine ih suf (c :: rest) hsne ?_
          have harr : pre2.reverse ++ (c :: rest) = (c :: pre2).reverse ++ rest := by
            simp
          rw [harr]
          exact hft

lemma codeSplit_sound {s code rest : List Char}
    (h : codeSplit s = some (code, rest)) :
    ∃ a b c d f g, code = [a, b, c, d, '-', f, g] ∧ s = code ++ rest ∧
      a.isDigit = true ∧ b.isDigit = true ∧ c.isDigit = true ∧
      d.isDigit = true ∧ f.isDigit = true ∧ g.isDigit = true := by
  unfold codeSplit at h
  split at h
  · rename_i a b c d e f g rest2
    split at h
    · rename_i hcond
      simp only [Option.some.injEq, Prod.mk.injEq] at h
      obtain ⟨hcode, hrest⟩ := h
      simp only [Bool.and_eq_true, decide_eq_true_eq] at hcond
      obtain ⟨⟨⟨⟨⟨⟨ha, hb⟩, hc⟩, hd⟩, he⟩, hf⟩, hg⟩ := hcond
      subst he
      subst hcode
      subst hrest
      exact ⟨a, b, c, d, f, g, rfl, by simp, ha, hb, hc, hd, hf, hg⟩
    · exact absurd h (by simp)
  · exact absurd h (by simp)

lemma codeSplit_complete {a b c d f g : Char} (rest : List Char)
    (ha : a.isDigit = true) (hb : b.isDigit = true) (hc : c.isDigit = true)
    (hd : d.isDigit = true) (hf : f.isDigit = true) (hg : g.isDigit = true) :
    codeSplit (a :: b :: c :: d :: '-' :: f :: g :: rest) =
      some ([a, b, c, d, '-', f, g], rest) := by
  simp [codeSplit, ha, hb, hc, hd, hf, hg]

lemma pmatchLine_sound {s code : List Char} {caps : List (List Char)}
    (h : pmatchLine s = some (code, caps)) :
    caps.length = 6 ∧ (∀ cap ∈ caps, FieldShape cap) ∧ LineGrammar s ∧
    ∃ a b c d f g, code = [a, b, c, d, '-', f, g] ∧
      a.isDigit = true ∧ b.isDigit = true ∧ c.isDigit = true ∧
      d.isDigit = true ∧ f.isDigit = true ∧ g.isDigit = true := by
  simp only [pmatchLine] at h
  split at h
  · exact absurd h (by simp)
  · rename_i code0 r0 hcs
    split at h
    · exact absurd h (by simp)
    · rename_i hemp
      split at h
      · rename_i caps0 hwgs
        simp only [Option.some.injEq, Prod.mk.injEq] at h
        obtain ⟨hcode, hcaps⟩ := h
        subst hcode
        subst hcaps
        obtain ⟨a, b, c, d, f, g, hcodeeq, hseq, ha, hb, hc, hd, hf, hg⟩ :=
          codeSplit_sound hcs
        have hwsmem : ∀ x ∈ (r0.takeWhile isPySpace).reverse,
            isPySpace x = true :=
          fun x hx => List.mem_takeWhile_imp (List.mem_reverse.mp hx)
        obtain ⟨w, gap, t, heq, hwne, hwall, hgne, hgnl, ht⟩ :=
          wsGapSearch_sound (r0.takeWhile isPySpace).reverse
            (r0.dropWhile isPySpace) _ hwgs hwsmem
        rw [List.reverse_reverse, List.takeWhile_append_dropWhile] at heq
        obtain ⟨hlen, hshapes, htl⟩ := tail6_sound ht
        refine ⟨hlen, hshapes, ?_, a, b, c, d, f, g, hcodeeq, ha, hb, hc, hd,
          hf, hg⟩
        refine ⟨a, b, c, d, f, g, w, gap, t, ?_, ha, hb, hc, hd, hf, hg,
          hwne, hwall, hgne, hgnl, htl⟩
        rw [hseq, hcodeeq, heq]
        simp
      · exact absurd h (by simp)

lemma stripCommas_field {run : List Char} {d1 d2 : Char}
    (hall : ∀ c ∈ run, isDC c = true) (hd1 : d1.isDigit = true)
    (hd2 : d2.isDigit = true) :
    stripCommas (run ++ ['.', d1, d2]) = stripCommas run ++ ['.', d1, d2] ∧
    (∀ c ∈ stripCommas run, c.isDigit = true) := by
  constructor
  · simp only [stripCommas, List.filter_append]
    congr 1
    simp [List.filter_cons, ne_comma_of_isDigit hd1, ne_comma_of_isDigit hd2]
  · intro c hcmem
    obtain ⟨hmem, hdec⟩ := List.mem_filter.mp hcmem
    have hne : c ≠ ',' := of_decide_eq_true hdec
    rcases Bool.or_eq_true_iff.mp (hall c hmem) with h1 | h1
    · exact h1
    · exact absurd (of_decide_eq_true h1) hne

lemma pyFloat_of_fieldShape {f : List Char} (hf : FieldShape f) :
    ∃ q, pyFloat (stripCommas f) = some q := by
  obtain ⟨run, d1, d2, hfeq, hne, hall, hd1, hd2⟩ := hf
  subst hfeq
  obtain ⟨hsplit, hdig⟩ := stripCommas_field hall hd1 hd2
  rw [hsplit]
  have htw := takeWhile_append_all Char.isDigit (stripCommas run) '.'
    [d1, d2] hdig (by decide)
  have harr : stripCommas run ++ ['.', d1, d2] =
      stripCommas run ++ '.' :: [d1, d2] := by simp
  rw [harr]
  simp only [pyFloat, htw.1, htw.2]
  simp [hd1, hd2]

lemma parseLine_of_pmatch {s code : List Char} {caps : List (List Char)}
    (h : pmatchLine s = some (code, caps)) :
    ∃ bd bc, capAmount caps 4 = some bd ∧ capAmount caps 5 = some bc ∧
      parseLine s = some ⟨String.mk code, amountFromBalances bd bc⟩ := by
  obtain ⟨hlen, hshapes, _, _⟩ := pmatchLine_sound h
  have h4 : 4 < caps.length := by rw [hlen]; omega
  have h5 : 5 < caps.length := by rw [hlen]; omega
  have hg4 : caps[4]? = some caps[4] := List.getElem?_eq_getElem h4
  have hg5 : caps[5]? = some caps[5] := List.getElem?_eq_getElem h5
  obtain ⟨bd, hbd⟩ := pyFloat_of_fieldShape (hshapes _ (List.getElem_mem h4))
  obtain ⟨bc, hbc⟩ := pyFloat_of_fieldShape (hshapes _ (List.getElem_mem h5))
  refine ⟨bd, bc, ?_, ?_, ?_⟩
  · simp [capAmount, hg4, hbd]
  · simp [capAmount, hg5, hbc]
  · simp only [parseLine, h, hg4, hg5, hbd, hbc]
    rfl

/-- Claim C3 counterexample: the regex pattern only accepts a hyphen
between the two digit groups, so a line starting `1112*01` with otherwise
valid fields is skipped entirely; no record with code 1112-01 (or any
other) is produced, contradicting the claimed `*`-to-`-` normalization. -/
theorem star_separator_line_rejected :
    parseLine "1112*01 Cash on hand 0.00 0.00 0.00 0.00 5,331,520.94 0.00".data
      = none := by decide

/-- Claim C3 as amended: the parser accepts only `-` as the code
separator; a `*` line yields no record at all, and every produced record
stores the code exactly as matched, seven characters with a hyphen in the
middle (so the same line written with `-` yields code 1112-01). -/
theorem code_stored_as_matched_hyphen :
    (∀ (s : List Char) (r : LedgerRecord), parseLine s = some r →
      ∃ a b c d f g, r.code = String.mk [a, b, c, d, '-', f, g] ∧
        a.isDigit = true ∧ b.isDigit = true ∧ c.isDigit = true ∧
        d.isDigit = true ∧ f.isDigit = true ∧ g.isDigit = true) ∧
    parseLine "1112-01 Cash on hand 0.00 0.00 0.00 0.00 5,331,520.94 0.00".data
      = some ⟨"1112-01", PyF.finite (5724677018809795 / 2 ^ 30)⟩ := by
  constructor
  · intro s r h
    cases hm : pmatchLine s with
    | none => rw [parseLine, hm] at h; exact absurd h (by simp)
    | some pr =>
        obtain ⟨code, caps⟩ := pr
        obtain ⟨bd, bc, _, _, heq⟩ := parseLine_of_pmatch hm
        rw [heq] at h
        obtain ⟨_, _, _, a, b, c, d, f, g, hcode, ha, hb, hc, hd, hf, hg⟩ :=
          pmatchLine_sound hm
        refine ⟨a, b, c, d, f, g, ?_, ha, hb, hc, hd, hf, hg⟩
        have hr : r = ⟨String.mk code, amountFromBalances bd bc⟩ :=
          (Option.some.injEq _ _).mp h.symm
        rw [hr, hcode]
  · decide

/-- Concrete instance of the amended C3: the record parsed from the
hyphenated sample line stores a seven-character hyphenated digit code. -/
theorem code_stored_as_matched_hyphen_witness :
    ∃ a b c d f g,
      ("1112-01" : String) = String.mk [a, b, c, d, '-', f, g] ∧
      a.isDigit = true ∧ b.isDigit = true ∧ c.isDigit = true ∧
      d.isDigit = true ∧ f.isDigit = true ∧ g.isDigit = true :=
  code_stored_as_matched_hyphen.1
    "1112-01 Cash on hand 0.00 0.00 0.00 0.00 5,331,520.94 0.00".data
    ⟨"1112-01", PyF.finite (5724677018809795 / 2 ^ 30)⟩ (by decide)

/-- Claim C6: every accepted line's amount is computed from the numeric
values of captures 5 and 6 alone (the balance-debit and balance-credit
columns): the amount is balance-debit when positive, otherwise the negated
balance-credit; concretely, balance-debit 0.00 with balance-credit
44,145.07 yields the negated double nearest 44145.07. -/
theorem amount_from_balance_columns :
    (∀ (s : List Char) (r : LedgerRecord), parseLine s = some r →
      ∃ code caps bd bc,
        pmatchLine s = some (code, caps) ∧ caps.length = 6 ∧
        capAmount caps 4 = some bd ∧ capAmount caps 5 = some bc ∧
        r.amount = amountFromBalances bd bc) ∧
    parseLine "1112-01 Cash 0.00 0.00 0.00 0.00 0.00 44,145.07".data =
      some ⟨"1112-01", PyF.finite (-(6067252221748183 / 2 ^ 37))⟩ := by
  constructor
  · intro s r h
    cases hm : pmatchLine s with
    | none => rw [parseLine, hm] at h; exact absurd h (by simp)
    | some pr =>
        obtain ⟨code, caps⟩ := pr
        obtain ⟨bd, bc, hbd, hbc, heq⟩ := parseLine_of_pmatch hm
        rw [heq] at h
        have hr : r = ⟨String.mk code, amountFromBalances bd bc⟩ :=
          (Option.some.injEq _ _).mp h.symm
        obtain ⟨hlen, _, _, _⟩ := pmatchLine_sound hm
        exact ⟨code, caps, bd, bc, rfl, hlen, hbd, hbc, by rw [hr]⟩
  · decide

/-- Concrete instance of C6 on the sample line with a zero debit balance
and credit balance 44,145.07. -/
theorem amount_from_balance_columns_witness :
    ∃ code caps bd bc,
      pmatchLine "1112-01 Cash 0.00 0.00 0.00 0.00 0.00 44,145.07".data =
        some (code, caps) ∧ caps.length = 6 ∧
      capAmount caps 4 = some bd ∧ capAmount caps 5 = some bc ∧
      (⟨"1112-01", PyF.finite (-(6067252221748183 / 2 ^ 37))⟩ :
          LedgerRecord).amount =
        amountFromBalances bd bc :=
  amount_from_balance_columns.1
    "1112-01 Cash 0.00 0.00 0.00 0.00 0.00 44,145.07".data
    ⟨"1112-01", PyF.finite (-(6067252221748183 / 2 ^ 37))⟩ (by decide)

/-- Claim C10: whenever the regex matches a line, the numeric conversion
of the two balance captures (comma removal followed by decimal parsing)
succeeds, so the warning branch of the loop is unreachable and the line
yields exactly one record. -/
theorem matched_line_conversion_total :
    ∀ (s code : List Char) (caps : List (List Char)),
      pmatchLine s = some (code, caps) →
      ∃ bd bc, capAmount caps 4 = some bd ∧ capAmount caps 5 = some bc ∧
        parseLine s = some ⟨String.mk code, amountFromBalances bd bc⟩ :=
  fun _ _ _ h => parseLine_of_pmatch h

lemma tailLang_head {t : List Char} (h : TailLang t) :
    ∃ r t2, t = r :: t2 ∧ isDC r = true := by
  obtain ⟨f, rest, heq, hf, _⟩ := h
  obtain ⟨run, d1, d2, hfeq, hrne, hrall, _, _⟩ := hf
  cases run with
  | nil => exact absurd rfl hrne
  | cons r rs =>
      refine ⟨r, rs ++ ['.', d1, d2] ++ rest, ?_, hrall r (by simp)⟩
      rw [heq, hfeq]
      simp

lemma wsGap_complete_main (ws0 gap0 t0 u r1 : List Char)
    (caps0 : List (List Char))
    (hwsne : ws0 ≠ []) (hwsall : ∀ x ∈ ws0, isPySpace x = true)
    (hgapne : gap0 ≠ []) (hgapnl : ∀ x ∈ gap0, x ≠ '\n')
    (hcaps0 : tail6 t0 = some caps0)
    (ht0head : ∃ r t2, t0 = r :: t2 ∧ isDC r = true)
    (hune : u ≠ []) (huall : ∀ x ∈ u, isPySpace x = true)
    (hudr : u ++ r1 = ws0 ++ (gap0 ++ t0))
    (hr1head : ∀ x, r1.head? = some x → isPySpace x = false) :
    (wsGapSearch u.reverse r1).isSome = true := by
  have hu2ex : ∃ u2, ws0 ++ u2 = u ∧ ∀ x ∈ u2, isPySpace x = true := by
    have hp1 : ws0 <+: u ++ r1 := by
      rw [hudr]; exact List.prefix_append _ _
    have hp2 : u <+: u ++ r1 := List.prefix_append _ _
    rcases List.prefix_or_prefix_of_prefix hp1 hp2 with hpre | hpre
    · obtain ⟨u2, hu2⟩ := hpre
      refine ⟨u2, hu2, fun x hx => huall x ?_⟩
      rw [← hu2]
      exact List.mem_append_right ws0 hx
    · obtain ⟨v, hv⟩ := hpre
      cases v with
      | nil => exact ⟨[], by rw [← hv]; simp, by simp⟩
      | cons v0 vtl =>
          exfalso
          have hr1eq : r1 = v0 :: (vtl ++ (gap0 ++ t0)) := by
            have h1 : u ++ r1 = u ++ (v0 :: (vtl ++ (gap0 ++ t0))) := by
              rw [hudr, ← hv]
              simp
            exact List.append_inj_right h1 rfl
          have hv0ws : isPySpace v0 = true := by
            refine hwsall v0 ?_
            rw [← hv]
            simp
          have hv0no : isPySpace v0 = false := by
            refine hr1head v0 ?_
            rw [hr1eq]
            rfl
          rw [hv0ws] at hv0no
          exact Bool.noConfusion hv0no
  obtain ⟨u2, hu2, hu2all⟩ := hu2ex
  have hcancel : u2 ++ r1 = gap0 ++ t0 := by
    have h1 : ws0 ++ (u2 ++ r1) = ws0 ++ (gap0 ++ t0) := by
      rw [← List.append_assoc, hu2, hudr]
    exact List.append_inj_right h1 rfl
  have hedge : u2 = gap0 → r1 = t0 →
      (wsGapSearch u.reverse r1).isSome = true := by
    intro hueq hrt
    have hrev : u.reverse = gap0.reverse ++ ws0.reverse := by
      rw [← hu2, hueq, List.reverse_append]
    rw [hrev]
    refine wsGapSearch_reach gap0.reverse ws0.reverse r1 (by simp [hwsne]) ?_
    rw [List.reverse_reverse, hrt]
    exact findTail_complete gap0 hgapne hgapnl t0 caps0 hcaps0
  have hq1 : gap0 <+: gap0 ++ t0 := List.prefix_append _ _
  have hq2 : u2 <+: gap0 ++ t0 := ⟨r1, hcancel⟩
  rcases List.prefix_or_prefix_of_prefix hq1 hq2 with hpre | hpre
  · obtain ⟨u3, hu3⟩ := hpre
    have htt : u3 ++ r1 = t0 := by
      have h1 : gap0 ++ (u3 ++ r1) = gap0 ++ t0 := by
        rw [← List.append_assoc, hu3, hcancel]
      exact List.append_inj_right h1 rfl
    cases u3 with
    | nil =>
        refine hedge ?_ (by simpa using htt)
        rw [← hu3]
        simp
    | cons u30 u3tl =>
        exfalso
        obtain ⟨r, t2, ht0eq, hrdc⟩ := ht0head
        have h3 : u30 :: (u3tl ++ r1) = r :: t2 := by
          have := htt.trans ht0eq
          simpa using this
        have heq30 : u30 = r := (List.cons.injEq u30 _ r _ ▸ h3).1
        have hws : isPySpace u30 = true := by
          refine hu2all u30 ?_
          rw [← hu3]
          simp
        have hno : isPySpace u30 = false := by
          rw [heq30]
          exact isPySpace_false_of_isDC hrdc
        rw [hws] at hno
        exact Bool.noConfusion hno
  · obtain ⟨g2, hg2⟩ := hpre
    have hrt : r1 = g2 ++ t0 := by
      have h1 : u2 ++ r1 = u2 ++ (g2 ++ t0) := by
        rw [hcancel, ← hg2]
        simp
      exact List.append_inj_right h1 rfl
    cases g2 with
    | nil =>
        refine hedge ?_ (by simpa using hrt)
        rw [← hg2]
        simp
    | cons c2 g2tl =>
        have hfind : (findTail r1).isSome = true := by
          rw [hrt]
          refine findTail_complete (c2 :: g2tl) (by simp) ?_ t0 caps0 hcaps0
          intro x hx
          refine hgapnl x ?_
          rw [← hg2]
          exact List.mem_append_right u2 hx
        have hres := wsGapSearch_reach [] u.reverse r1 (by simp [hune])
          (by simpa using hfind)
        simpa using hres

lemma pmatchLine_complete {s : List Char} (hgram : LineGrammar s) :
    ∃ code caps, pmatchLine s = some (code, caps) := by
  obtain ⟨a, b, c, d, f, g, ws0, gap0, t0, hseq, ha, hb, hc, hd, hf, hg6,
    hwsne, hwsall, hgapne, hgapnl, htl⟩ := hgram
  subst hseq
  have hcs := codeSplit_complete (ws0 ++ gap0 ++ t0) ha hb hc hd hf hg6
  obtain ⟨caps0, hcaps0⟩ := tail6_complete htl
  have hune : (ws0 ++ gap0 ++ t0).takeWhile isPySpace ≠ [] := by
    cases ws0 with
    | nil => exact absurd rfl hwsne
    | cons w0 wtl =>
        have hw0 : isPySpace w0 = true := hwsall w0 (by simp)
        have heq : ((w0 :: wtl) ++ gap0 ++ t0).takeWhile isPySpace =
            w0 :: ((wtl ++ gap0 ++ t0).takeWhile isPySpace) := by
          simp only [List.cons_append]
          exact List.takeWhile_cons_of_pos hw0
        rw [heq]
        simp
  have hsome := wsGap_complete_main ws0 gap0 t0
    ((ws0 ++ gap0 ++ t0).takeWhile isPySpace)
    ((ws0 ++ gap0 ++ t0).dropWhile isPySpace) caps0 hwsne hwsall hgapne
    hgapnl hcaps0 (tailLang_head htl) hune
    (fun x hx => List.mem_takeWhile_imp hx)
    (by rw [List.takeWhile_append_dropWhile]; simp)
    (fun x hx => dropWhile_head_false (ws0 ++ gap0 ++ t0) hx)
  cases hw : wsGapSearch ((ws0 ++ gap0 ++ t0).takeWhile isPySpace).reverse
      ((ws0 ++ gap0 ++ t0).dropWhile isPySpace) with
  | none => rw [hw] at hsome; exact absurd hsome (by simp)
  | some caps1 =>
      refine ⟨[a, b, c, d, '-', f, g], caps1, ?_⟩
      simp only [pmatchLine, hcs, isEmpty_false_of_ne_nil hune, hw]
      simp

/-- Claim C7 counterexample: a line with no account label and seven
numeric fields is accepted (the lazy label region swallows the first
field, the prefix match ignores the seventh), yielding a record with
amount 6.00 from fields five and six of the first six matched; and a line
using the `*` separator, which the claimed grammar accepts, is skipped. -/
theorem line_grammar_claim_counterexample :
    parseLine "1112-01 1.00 2.00 3.00 4.00 5.00 6.00 7.00".data =
      some ⟨"1112-01", PyF.finite 6⟩ ∧
    parseLine "2132*02 Tax 1.00 2.00 3.00 4.00 5.00 6.00".data = none := by
  constructor <;> decide

/-- Claim C7 as amended: a line yields a record exactly when it starts
with four digits, a hyphen (never `*`), two digits, at least one
whitespace character, at least one further newline-free character, and
then six whitespace-separated `digits-and-commas.dd` fields; arbitrary
content may follow the sixth field, and the region before the first
matched field need not contain a word — it may itself consist of further
whitespace and numeric text.  Every other line is skipped, contributing
nothing. -/
theorem line_accepted_iff_grammar :
    ∀ s : List Char, (parseLine s).isSome = true ↔ LineGrammar s := by
  intro s
  constructor
  · intro h
    obtain ⟨r, hr⟩ := Option.isSome_iff_exists.mp h
    cases hm : pmatchLine s with
    | none => rw [parseLine, hm] at hr; exact absurd hr (by simp)
    | some pr =>
        obtain ⟨code, caps⟩ := pr
        exact (pmatchLine_sound hm).2.2.1
  · intro h
    obtain ⟨code, caps, hm⟩ := pmatchLine_complete h
    obtain ⟨bd, bc, _, _, heq⟩ := parseLine_of_pmatch hm
    rw [heq]
    rfl

/-- Concrete instance of the amended C7: the sample ledger line is in the
accepted-line language. -/
theorem line_accepted_iff_grammar_witness :
    LineGrammar
      "1112-01 Cash on hand 0.00 0.00 0.00 0.00 5,331,520.94 0.00".data :=
  (line_accepted_iff_grammar
    "1112-01 Cash on hand 0.00 0.00 0.00 0.00 5,331,520.94 0.00".data).mp
    (by decide)

lemma group3_cases :
    ∀ l : List Char, group3 l = l ∨
      ∃ a b c rest, l = a :: b :: c :: rest ∧ rest ≠ [] ∧
        group3 l = a :: b :: c :: ',' :: group3 rest := by
  intro l
  match l with
  | [] => exact Or.inl rfl
  | [a] => exact Or.inl rfl
  | [a, b] => exact Or.inl rfl
  | [a, b, c] => exact Or.inl rfl
  | a :: b :: c :: d :: rest =>
      exact Or.inr ⟨a, b, c, d :: rest, rfl, by simp, rfl⟩

lemma group3_ne_nil : ∀ l : List Char, l ≠ [] → group3 l ≠ [] := by
  intro l hne
  rcases group3_cases l with h | ⟨a, b, c, rest, hleq, hrne, hg⟩
  · rw [h]; exact hne
  · rw [hg]; simp

lemma group3_mem :
    ∀ (n : Nat) (l : List Char), l.length ≤ n →
      ∀ c ∈ group3 l, c ∈ l ∨ c = ',' := by
  intro n
  induction n with
  | zero =>
      intro l hl c hc
      cases l with
      | nil => rw [show group3 [] = [] from rfl] at hc; exact absurd hc (by simp)
      | cons a t => simp at hl
  | succ n ih =>
      intro l hl c hc
      rcases group3_cases l with h | ⟨a, b, c3, rest, hleq, hrne, hg⟩
      · rw [h] at hc; exact Or.inl hc
      · rw [hg] at hc
        subst hleq
        simp only [List.mem_cons] at hc
        have hrlen : rest.length ≤ n := by
          simp only [List.length_cons] at hl
          omega
        rcases hc with h1 | h1 | h1 | h1 | h1
        · exact Or.inl (by simp [h1])
        · exact Or.inl (by simp [h1])
        · exact Or.inl (by simp [h1])
        · exact Or.inr h1
        · rcases ih rest hrlen c h1 with h2 | h2
          · exact Or.inl (by simp [h2])
          · exact Or.inr h2

lemma revGrouped_group3 :
    ∀ (n : Nat) (l : List Char), l.length ≤ n → l ≠ [] →
      (∀ c ∈ l, c.isDigit = true) → revGroupedDigits (group3 l) = true := by
  intro n
  induction n with
  | zero =>
      intro l hl hne _
      cases l with
      | nil => exact absurd rfl hne
      | cons a t => simp at hl
  | succ n ih =>
      intro l hl hne hdig
      rcases l with _ | ⟨a, _ | ⟨b, _ | ⟨c, _ | ⟨d, rest⟩⟩⟩⟩
      · exact absurd rfl hne
      · simp [group3, revGroupedDigits, hdig a (by simp)]
      · simp [group3, revGroupedDigits, hdig a (by simp), hdig b (by simp)]
      · simp [group3, revGroupedDigits, hdig a (by simp), hdig b (by simp),
          hdig c (by simp)]
      · have hg : group3 (a :: b :: c :: d :: rest) =
            a :: b :: c :: ',' :: group3 (d :: rest) := rfl
        rw [hg]
        have hgnn : group3 (d :: rest) ≠ [] := group3_ne_nil _ (by simp)
        have hih : revGroupedDigits (group3 (d :: rest)) = true := by
          refine ih (d :: rest) ?_ (by simp) ?_
          · simp only [List.length_cons] at hl ⊢
            omega
          · intro x hx
            exact hdig x (by simp [List.mem_cons] at hx ⊢; tauto)
        cases hcase : group3 (d :: rest) with
        | nil => exact absurd hcase hgnn
        | cons x xs =>
            rw [hcase] at hih
            simp only [revGroupedDigits]
            simp [hdig a (by simp), hdig b (by simp), hdig c (by simp), hih]

lemma isDigit_digitCh {dd : Nat} (h : dd < 10) : (digitCh dd).isDigit = true := by
  interval_cases dd <;> decide

lemma revGrouped_natCommaGrouped (n : Nat) :
    revGroupedDigits ((natCommaGrouped n).reverse) = true := by
  by_cases h0 : n = 0
  · subst h0; decide
  · simp only [natCommaGrouped, if_neg h0, List.reverse_reverse]
    refine revGrouped_group3 ((Nat.digits 10 n).map digitCh).length _ le_rfl
      ?_ ?_
    · simpa using Nat.digits_ne_nil_iff_ne_zero.mpr h0
    · intro c hc
      obtain ⟨dd, hdd, hcd⟩ := List.mem_map.mp hc
      rw [← hcd]
      exact isDigit_digitCh (Nat.digits_lt_base (by norm_num) hdd)

lemma natCommaGrouped_mem {n : Nat} :
    ∀ c ∈ natCommaGrouped n, c.isDigit = true ∨ c = ',' := by
  intro c hc
  by_cases h0 : n = 0
  · subst h0
    rw [show natCommaGrouped 0 = ['0'] from rfl, List.mem_singleton] at hc
    subst hc
    exact Or.inl (by decide)
  · simp only [natCommaGrouped, if_neg h0, List.mem_reverse] at hc
    rcases group3_mem ((Nat.digits 10 n).map digitCh).length _ le_rfl c hc
      with h | h
    · obtain ⟨dd, hdd, hcd⟩ := List.mem_map.mp h
      rw [← hcd]
      exact Or.inl (isDigit_digitCh (Nat.digits_lt_base (by norm_num) hdd))
    · exact Or.inr h

lemma natCommaGrouped_ne_nil (n : Nat) : natCommaGrouped n ≠ [] := by
  by_cases h0 : n = 0
  · subst h0; decide
  · simp only [natCommaGrouped, if_neg h0]
    have hm : (Nat.digits 10 n).map digitCh ≠ [] := by
      simpa using Nat.digits_ne_nil_iff_ne_zero.mpr h0
    have h2 := group3_ne_nil _ hm
    simpa using h2

lemma moneyDigits_body (m k : Nat) :
    moneyDigits (natCommaGrouped m ++ ['.'] ++ pad2 k) = true := by
  have hrev : (natCommaGrouped m ++ ['.'] ++ pad2 k).reverse =
      digitCh (k % 10) :: digitCh (k / 10 % 10) :: '.' ::
        (natCommaGrouped m).reverse := by
    simp [pad2, List.reverse_append]
  simp only [moneyDigits, hrev]
  have h1 : (digitCh (k % 10)).isDigit = true :=
    isDigit_digitCh (Nat.mod_lt _ (by norm_num))
  have h2 : (digitCh (k / 10 % 10)).isDigit = true :=
    isDigit_digitCh (Nat.mod_lt _ (by norm_num))
  simp [h1, h2, revGrouped_natCommaGrouped m]

lemma isMoneyFormat_mk_cons {h : Char} {t : List Char} (hne : ¬ h = '-') :
    isMoneyFormat (String.mk (h :: t)) = moneyDigits (h :: t) := by
  simp only [isMoneyFormat]
  rw [if_neg hne]

lemma isMoneyFormat_mk_neg {t : List Char} :
    isMoneyFormat (String.mk ('-' :: t)) = moneyDigits t := by
  simp [isMoneyFormat]

lemma moneyFormat_formatMoney (q : ℚ) : isMoneyFormat (formatMoney q) = true := by
  simp only [formatMoney]
  by_cases hneg : rheInt (q * 100) < 0
  · rw [if_pos hneg, isMoneyFormat_mk_neg]
    exact moneyDigits_body _ _
  · rw [if_neg hneg]
    obtain ⟨h, t, hnc⟩ : ∃ h t,
        natCommaGrouped ((rheInt (q * 100)).natAbs / 100) = h :: t := by
      cases hcase : natCommaGrouped ((rheInt (q * 100)).natAbs / 100) with
      | nil => exact absurd hcase (natCommaGrouped_ne_nil _)
      | cons x xs => exact ⟨x, xs, rfl⟩
    have hhne : ¬ h = '-' := by
      have hmem : h ∈ natCommaGrouped ((rheInt (q * 100)).natAbs / 100) := by
        rw [hnc]; simp
      rcases natCommaGrouped_mem h hmem with h1 | h1
      · intro he; subst he; exact absurd h1 (by decide)
      · intro he; subst he; exact absurd h1.symm (by decide)
    have hbody : natCommaGrouped ((rheInt (q * 100)).natAbs / 100) ++
        ['.'] ++ pad2 ((rheInt (q * 100)).natAbs % 100) =
        h :: (t ++ ['.'] ++ pad2 ((rheInt (q * 100)).natAbs % 100)) := by
      rw [hnc]
      simp
    rw [hbody, isMoneyFormat_mk_cons hhne, ← hbody]
    exact moneyDigits_body _ _

set_option maxRecDepth 40000 in
/-- Claim C9 counterexample: a 310-digit balance field overflows
`float()` to infinity, and the program renders that present, infinite
ledger amount as the empty string (the `isinf` guard), not as a formatted
number string. -/
theorem overflow_renders_empty_counterexample :
    parseLine ("1112-01 B 0.00 0.00 0.00 0.00 ".data ++
      ('1' :: List.replicate 309 '0') ++ ".00 0.00".data) =
      some ⟨"1112-01", PyF.pinf⟩ ∧
    (formatRow ⟨"Bank1 amt", "f", "1112-01", some PyF.pinf, none, "",
      "s"⟩).tbAmtStr = "" := by
  constructor
  · decide
  · rfl

/-- Claim C9 as amended: the formatted ledger-amount column is the empty
string when the amount is absent, a thousands-grouped fixed-two-decimal
string when the amount is present and finite, and the empty string again
for a present infinite amount (reachable through `float()` overflow,
caught by the `isinf` guard); it is never the text None or NaN; the
expected-amount column is passed through as the raw optional numeric
value. -/
theorem tb_amount_formatting :
    ∀ row : RawRow,
      (row.tbAmt = none → (formatRow row).tbAmtStr = "") ∧
      (∀ q, row.tbAmt = some (PyF.finite q) →
        (formatRow row).tbAmtStr = formatMoney q ∧
        isMoneyFormat (formatRow row).tbAmtStr = true) ∧
      (row.tbAmt = some PyF.pinf ∨ row.tbAmt = some PyF.ninf →
        (formatRow row).tbAmtStr = "") ∧
      (formatRow row).tbAmtStr ≠ "None" ∧
      (formatRow row).tbAmtStr ≠ "NaN" ∧
      (formatRow row).pdfAmt = row.pdfAmt := by
  intro row
  have hstr : ∀ q, row.tbAmt = some (PyF.finite q) →
      (formatRow row).tbAmtStr = formatMoney q := by
    intro q h
    simp [formatRow, h]
  have hcases : (formatRow row).tbAmtStr = "" ∨
      ∃ q, row.tbAmt = some (PyF.finite q) ∧
        (formatRow row).tbAmtStr = formatMoney q := by
    cases h : row.tbAmt with
    | none => exact Or.inl (by simp [formatRow, h])
    | some v =>
        cases v with
        | finite q => exact Or.inr ⟨q, rfl, hstr q h⟩
        | pinf => exact Or.inl (by simp [formatRow, h])
        | ninf => exact Or.inl (by simp [formatRow, h])
        | nan => exact Or.inl (by simp [formatRow, h])
  have hnever : ∀ bad : String, isMoneyFormat bad = false →
      bad ≠ "" → (formatRow row).tbAmtStr ≠ bad := by
    intro bad hbad hbadne
    rcases hcases with h | ⟨q, _, h⟩
    · rw [h]; exact fun he => hbadne he.symm
    · rw [h]
      intro he
      have hmf := moneyFormat_formatMoney q
      rw [he, hbad] at hmf
      exact Bool.noConfusion hmf
  refine ⟨?_, ?_, ?_, ?_, ?_, rfl⟩
  · intro h
    simp [formatRow, h]
  · intro q h
    exact ⟨hstr q h, by rw [hstr q h]; exact moneyFormat_formatMoney q⟩
  · rintro (h | h) <;> simp [formatRow, h]
  · exact hnever "None" (by decide) (by decide)
  · exact hnever "NaN" (by decide) (by decide)

/-- Concrete instance of the amended C9: a present finite negative amount
renders as a grouped two-decimal string and the expected amount passes
through raw. -/
theorem tb_amount_formatting_witness :
    (formatRow ⟨"PP30 amt", "x", "2137-00",
      some (PyF.finite (-(6067252221748183 / 2 ^ 37))),
      some (PyF.finite (6067252221748183 / 2 ^ 37)), "Match> Correct",
      "s"⟩).tbAmtStr = formatMoney (-(6067252221748183 / 2 ^ 37)) ∧
    isMoneyFormat (formatRow ⟨"PP30 amt", "x", "2137-00",
      some (PyF.finite (-(6067252221748183 / 2 ^ 37))),
      some (PyF.finite (6067252221748183 / 2 ^ 37)), "Match> Correct",
      "s"⟩).tbAmtStr = true :=
  (tb_amount_formatting _).2.1 (-(6067252221748183 / 2 ^ 37)) rfl

/-- Concrete instance of C10 on the sample ledger line. -/
theorem matched_line_conversion_total_witness :
    ∃ bd bc,
      capAmount ["0.00".data, "0.00".data, "0.00".data, "0.00".data,
        "5,331,520.94".data, "0.00".data] 4 = some bd ∧
      capAmount ["0.00".data, "0.00".data, "0.00".data, "0.00".data,
        "5,331,520.94".data, "0.00".data] 5 = some bc ∧
      parseLine "1112-01 Cash on hand 0.00 0.00 0.00 0.00 5,331,520.94 0.00".data
        = some ⟨String.mk "1112-01".data, amountFromBalances bd bc⟩ :=
  matched_line_conversion_total
    "1112-01 Cash on hand 0.00 0.00 0.00 0.00 5,331,520.94 0.00".data
    "1112-01".data
    ["0.00".data, "0.00".data, "0.00".data, "0.00".data,
      "5,331,520.94".data, "0.00".data] (by decide)

end Recon
